import Mathlib

/-!
Verification development for `src/transform_vehicle_data.py`.

The script is a single linear pandas pipeline:
  load → coerce timestamps (lines 20, 25) → coerce numerics (line 28)
  → drop rows with null `event_time` (line 33)
  → per-`signal_name` median imputation of `signal_value` (lines 37-42)
  → derived `date`/`hour` columns (lines 45-46)
  → stable sort by (`vehicle_id`, `trip_id`, `event_time`) and re-index (line 49).

Embedding choices:
* A row is a structure of typed, nullable fields.  The `to_datetime` /
  `to_numeric` coercions with `errors='coerce'` produce typed-or-null
  columns; rows enter the embedding after that boundary, so `event_time`,
  `ingestion_time` are `Option Nat` (seconds since the epoch) and
  `signal_value` is `Option ℚ` (exact rationals in place of float64).
* The pandas row index is modelled explicitly: stages act on
  `Nat × Row` entries, `dropna` / `.loc` / `sort_values` preserve the
  index, and `reset_index(drop=True)` renumbers it at the end.
* `date`/`hour` are nullable fields of the row (a DataFrame has an open
  column set; the columns are absent — `none` — until stage 6 assigns
  them).  Additional pass-through columns are the `extra` field.
* The stable lexicographic sort of `sort_values` is realised by
  `List.insertionSort` (stable, like the stable multi-column lexsort
  pandas uses) on the lexicographic key comparator `rowLe`; pandas'
  default `na_position='last'` corresponds to `timeLeB` ordering null
  timestamps last.
-/

namespace VehicleData

/-- One row of the table after the coercion boundary (see file header). -/
structure Row where
  vehicle_id : String
  trip_id : String
  signal_name : String
  signal_value : Option ℚ
  event_time : Option Nat
  ingestion_time : Option Nat
  date : Option Nat
  hour : Option Nat
  extra : List String
deriving DecidableEq

/-- A row together with its pandas index. -/
abbrev Entry := Nat × Row

/-- Line 21: `df[df['event_time'].isna()].shape[0]` — count of null
`event_time` values over the full (pre-filter) table. -/
def invalid_times (df : List Row) : Nat :=
  df.countP (fun r => r.event_time.isNone)

/-- Line 29: `df[df['signal_value'].isna()].shape[0]` — count of null
`signal_value` values over the full (pre-filter) table. -/
def missing_values (df : List Row) : Nat :=
  df.countP (fun r => r.signal_value.isNone)

/-- Line 33: `df.dropna(subset=['event_time'])` — keep exactly the rows
whose `event_time` is non-null; indices are preserved. -/
def df_cleaned (df : List Entry) : List Entry :=
  df.filter (fun e => e.2.event_time.isSome)

/-- Line 39 inner selection:
`df_cleaned[df_cleaned['signal_name'] == signal]['signal_value']` with
pandas' `skipna=True` median — the non-null `signal_value` entries of the
rows whose `signal_name` equals `s`, in table order. -/
def groupVals (l : List Entry) (s : String) : List ℚ :=
  (l.filter (fun e => e.2.signal_name == s)).filterMap (fun e => e.2.signal_value)

/-- `pandas.Series.median` on the non-null values: sort; middle element for
odd length, mean of the two middle elements for even length, `none`
(pandas `NaN`) for the empty list. -/
def median (l : List ℚ) : Option ℚ :=
  let s := l.insertionSort (fun a b => a ≤ b)
  if s.length % 2 = 1 then s[s.length / 2]?
  else
    match s[s.length / 2 - 1]?, s[s.length / 2]? with
    | some a, some b => some ((a + b) / 2)
    | _, _ => none

/-- Line 37: `df_cleaned['signal_name'].unique()` — the distinct signal
names in order of first appearance. -/
def uniqueSignals : List Entry → List String
  | [] => []
  | e :: l =>
    e.2.signal_name :: (uniqueSignals l).filter (fun s => !(s == e.2.signal_name))

/-- Line 41: `df_cleaned.loc[mask, 'signal_value'] = median_value` where
`mask = (signal_name == s) & signal_value.isna()` — assign `m` to the null
`signal_value` entries of group `s`. -/
def fillGroup (s : String) (m : ℚ) (l : List Entry) : List Entry :=
  l.map (fun e =>
    if e.2.signal_name = s ∧ e.2.signal_value = none then
      (e.1, { e.2 with signal_value := some m })
    else e)

/-- One iteration of the loop of lines 37-42 on state (table, log of
printed (signal, median) pairs): compute the group median on the current
table and, when it is defined (`pd.notna`), fill the group's nulls and
print the message. -/
def imputeStep (st : List Entry × List (String × ℚ)) (s : String) :
    List Entry × List (String × ℚ) :=
  match median (groupVals st.1 s) with
  | some m => (fillGroup s m st.1, st.2 ++ [(s, m)])
  | none => st

/-- Lines 37-42: the whole imputation loop. -/
def imputeFold (l : List Entry) : List Entry × List (String × ℚ) :=
  (uniqueSignals l).foldl imputeStep (l, [])

/-- The table after the imputation loop. -/
def fillMissing (l : List Entry) : List Entry := (imputeFold l).1

/-- The `(signal, median)` messages printed by line 42, in order. -/
def imputeLog (l : List Entry) : List (String × ℚ) := (imputeFold l).2

/-- Declarative per-row description of imputation: a null `signal_value`
is replaced by the median of its `signal_name` group of `l` when that
median is defined, and is left null otherwise; non-null values and all
other fields are untouched. -/
def fillRow (l : List Entry) (e : Entry) : Entry :=
  if e.2.signal_value = none then
    match median (groupVals l e.2.signal_name) with
    | some m => (e.1, { e.2 with signal_value := some m })
    | none => e
  else e

/-- Lines 45-46 on one row: `event_time.dt.date` and
`event_time.dt.hour`.  With `event_time` as seconds since the epoch, the
calendar date component is the day number `t / 86400` and the hour
component is `t % 86400 / 3600`; `.dt` on a null timestamp yields
null. -/
def derivePt (e : Entry) : Entry :=
  match e.2.event_time with
  | some t => (e.1, { e.2 with date := some (t / 86400), hour := some (t % 86400 / 3600) })
  | none => (e.1, { e.2 with date := none, hour := none })

/-- Lines 45-46: `df_cleaned['date'] = df_cleaned['event_time'].dt.date`
and `df_cleaned['hour'] = df_cleaned['event_time'].dt.hour`. -/
def addDerived (l : List Entry) : List Entry :=
  l.map derivePt

/-- Strict lexicographic comparison of strings by their character
sequences (code points), the ascending string order `sort_values`
uses. -/
def charListLt : List Char → List Char → Bool
  | [], [] => false
  | [], _ :: _ => true
  | _ :: _, [] => false
  | a :: as, b :: bs =>
    if a.toNat < b.toNat then true
    else if b.toNat < a.toNat then false
    else charListLt as bs

/-- Comparison of `event_time` keys: chronological, with null timestamps
ordered last (pandas' default `na_position='last'`; no null is actually
present after the filter stage). -/
def timeLeB : Option Nat → Option Nat → Bool
  | _, none => true
  | none, some _ => false
  | some a, some b => decide (a ≤ b)

/-- Line 49 comparison: by `vehicle_id` (ascending, lexicographic), ties
by `trip_id` (ascending, lexicographic), ties by `event_time`
(ascending, chronological). -/
def rowLe (a b : Row) : Bool :=
  if a.vehicle_id = b.vehicle_id then
    if a.trip_id = b.trip_id then timeLeB a.event_time b.event_time
    else charListLt a.trip_id.data b.trip_id.data
  else charListLt a.vehicle_id.data b.vehicle_id.data

/-- The three sort-key columns of a row. -/
def keyOf (r : Row) : String × String × Option Nat :=
  (r.vehicle_id, r.trip_id, r.event_time)

/-- Comparison of entries induced by `rowLe` (indices do not participate
in the comparison). -/
def entryLe (a b : Entry) : Prop := rowLe a.2 b.2 = true

instance : DecidableRel entryLe := fun a b =>
  inferInstanceAs (Decidable (rowLe a.2 b.2 = true))

/-- Line 49: `df_cleaned.sort_values(['vehicle_id', 'trip_id',
'event_time'])` — a stable sort by the lexicographic key (realised by
insertion sort, which is stable, like the stable multi-column lexsort
pandas uses). -/
def sortStage (l : List Entry) : List Entry := l.insertionSort entryLe

/-- Line 49: `.reset_index(drop=True)` — renumber the index `0, 1, ...`
with no gaps, discarding the prior identity. -/
def resetIndex (l : List Entry) : List Entry := (l.map Prod.snd).enum

/-- The retained entries after stages 4-7, before re-indexing. -/
def retained (rows : List Row) : List Entry :=
  sortStage (addDerived (fillMissing (df_cleaned rows.enum)))

/-- The whole pipeline at table level: rows in, rows out (the saved CSV
has `index=False`, so the output is just the row sequence). -/
def transform (rows : List Row) : List Row :=
  (resetIndex (retained rows)).map Prod.snd

/-- Column-level effect of an assignment `df[c] = ...`: appends the
column when absent, overwrites it in place when present. -/
def addColumn (h : List String) (c : String) : List String :=
  if c ∈ h then h else h ++ [c]

/-- Header of the saved table: the input header after the `date` and
`hour` assignments of lines 45-46. -/
def outputHeader (h : List String) : List String :=
  addColumn (addColumn h "date") "hour"

/-- The fields of a row that no stage after filtering ever modifies
(everything except `signal_value`, `date`, `hour`). -/
def stripVal (r : Row) : String × String × String × Option Nat × Option Nat × List String :=
  (r.vehicle_id, r.trip_id, r.signal_name, r.event_time, r.ingestion_time, r.extra)

/-- Loop-invariant description of the imputation loop's partial progress:
the rows whose signal is among the already-processed names `done` have
been filled (relative to the pristine table `l`), the others are
untouched. -/
def fillOn (done : List String) (l : List Entry) (e : Entry) : Entry :=
  if e.2.signal_name ∈ done then fillRow l e else e

/-- The message printed for signal `s` by line 42, when any. -/
def logEntry (l : List Entry) (s : String) : Option (String × ℚ) :=
  (median (groupVals l s)).map (fun m => (s, m))

/-! Concrete sample rows (the spec's §8 scenario, plus an all-null group
with an extra pass-through column) used to instantiate the
hypothesis-bearing theorems below at concrete inputs. -/

/-- A valid speed reading at 10:00. -/
def exRowSpeedA : Row := ⟨"V1", "T1", "speed", some 10, some 36000, none, none, none, []⟩

/-- A null speed reading at 09:00. -/
def exRowSpeedNull : Row := ⟨"V1", "T1", "speed", none, some 32400, none, none, none, []⟩

/-- A speed reading with an unparseable timestamp. -/
def exRowBadTime : Row := ⟨"V1", "T1", "speed", some 20, none, none, none, none, []⟩

/-- A null reading in a group with no valid value, with an extra column. -/
def exRowTempNull : Row := ⟨"V2", "T2", "temp", none, some 90000, none, none, none, ["x"]⟩

/-- The sample table. -/
def exTable : List Row := [exRowSpeedA, exRowSpeedNull, exRowBadTime, exRowTempNull]

/-- The six input columns of the schema. -/
def exHeader : List String :=
  ["vehicle_id", "trip_id", "signal_name", "signal_value", "event_time", "ingestion_time"]

end VehicleData

namespace VehicleData

/-! ### Basic facts about the row operations -/

theorem fillRow_fst (l : List Entry) (e : Entry) : (fillRow l e).1 = e.1 := by
  unfold fillRow
  split
  · split <;> rfl
  · rfl

theorem fillRow_sig (l : List Entry) (e : Entry) :
    (fillRow l e).2.signal_name = e.2.signal_name := by
  unfold fillRow
  split
  · split <;> rfl
  · rfl

theorem fillRow_stripVal (l : List Entry) (e : Entry) :
    stripVal (fillRow l e).2 = stripVal e.2 := by
  unfold fillRow
  split
  · split <;> rfl
  · rfl

theorem fillRow_date (l : List Entry) (e : Entry) : (fillRow l e).2.date = e.2.date := by
  unfold fillRow
  split
  · split <;> rfl
  · rfl

theorem fillRow_hour (l : List Entry) (e : Entry) : (fillRow l e).2.hour = e.2.hour := by
  unfold fillRow
  split
  · split <;> rfl
  · rfl

theorem fillRow_event_time (l : List Entry) (e : Entry) :
    (fillRow l e).2.event_time = e.2.event_time := by
  have h := fillRow_stripVal l e
  unfold stripVal at h
  exact congrArg (fun x => x.2.2.2.1) h

theorem fillOn_sig (done : List String) (l : List Entry) (e : Entry) :
    (fillOn done l e).2.signal_name = e.2.signal_name := by
  unfold fillOn
  split
  · exact fillRow_sig l e
  · rfl

/-! ### The sort comparator is reflexive, transitive and total -/

theorem charListLt_asymm : ∀ as bs, charListLt as bs = true → charListLt bs as = false
  | [], [] => by simp [charListLt]
  | [], _ :: _ => by simp [charListLt]
  | _ :: _, [] => by simp [charListLt]
  | a :: as, b :: bs => by
    rw [charListLt, charListLt]
    intro h
    by_cases h1 : a.toNat < b.toNat
    · have h2 : ¬ b.toNat < a.toNat := by omega
      simp [h1, h2]
    · by_cases h2 : b.toNat < a.toNat
      · rw [if_neg h1, if_pos h2] at h
        exact absurd h (by simp)
      · rw [if_neg h1, if_neg h2] at h
        rw [if_neg h2, if_neg h1]
        exact charListLt_asymm as bs h

theorem charListLt_trans : ∀ as bs cs, charListLt as bs = true →
    charListLt bs cs = true → charListLt as cs = true := by
  intro as
  induction as with
  | nil =>
    intro bs cs h1 h2
    cases cs with
    | nil =>
      cases bs with
      | nil => simp [charListLt] at h1
      | cons b bs => simp [charListLt] at h2
    | cons c cs => simp [charListLt]
  | cons a as ih =>
    intro bs cs h1 h2
    cases bs with
    | nil => simp [charListLt] at h1
    | cons b bs =>
      cases cs with
      | nil => simp [charListLt] at h2
      | cons c cs =>
        rw [charListLt] at h1 h2 ⊢
        by_cases hab : a.toNat < b.toNat <;> by_cases hbc : b.toNat < c.toNat
        · simp [show a.toNat < c.toNat by omega]
        · by_cases hcb : c.toNat < b.toNat
          · rw [if_neg hbc, if_pos hcb] at h2
            simp at h2
          · simp [show a.toNat < c.toNat by omega]
        · by_cases hba : b.toNat < a.toNat
          · rw [if_neg hab, if_pos hba] at h1
            simp at h1
          · simp [show a.toNat < c.toNat by omega]
        · by_cases hba : b.toNat < a.toNat
          · rw [if_neg hab, if_pos hba] at h1
            simp at h1
          · by_cases hcb : c.toNat < b.toNat
            · rw [if_neg hbc, if_pos hcb] at h2
              simp at h2
            · rw [if_neg hab, if_neg hba] at h1
              rw [if_neg hbc, if_neg hcb] at h2
              rw [if_neg (show ¬ a.toNat < c.toNat by omega),
                if_neg (show ¬ c.toNat < a.toNat by omega)]
              exact ih bs cs h1 h2

theorem charListLt_total_of_ne : ∀ as bs, as ≠ bs →
    charListLt as bs = true ∨ charListLt bs as = true := by
  intro as
  induction as with
  | nil =>
    intro bs hne
    cases bs with
    | nil => exact absurd rfl hne
    | cons b bs =>
      left
      simp [charListLt]
  | cons a as ih =>
    intro bs hne
    cases bs with
    | nil =>
      right
      simp [charListLt]
    | cons b bs =>
      by_cases hab : a.toNat < b.toNat
      · left
        rw [charListLt]
        simp [hab]
      · by_cases hba : b.toNat < a.toNat
        · right
          rw [charListLt]
          simp [hba]
        · have hnat : a.toNat = b.toNat := by omega
          have hchar : a = b := Char.ext (UInt32.toNat.inj hnat)
          have htail : as ≠ bs := fun h => hne (by rw [hchar, h])
          rcases ih bs htail with h | h
          · left
            rw [charListLt]
            simp [hab, hba, h]
          · right
            rw [charListLt]
            simp [hab, hba, h]

theorem timeLeB_none_right : ∀ a, timeLeB a none = true
  | none => rfl
  | some _ => rfl

theorem timeLeB_refl : ∀ t, timeLeB t t = true
  | none => rfl
  | some a => by simp [timeLeB]

theorem timeLeB_trans : ∀ a b c, timeLeB a b = true → timeLeB b c = true →
    timeLeB a c = true
  | a, _, none, _, _ => timeLeB_none_right a
  | _, none, some _, _, h2 => by simp [timeLeB] at h2
  | none, some _, some _, h1, _ => by simp [timeLeB] at h1
  | some a, some b, some c, h1, h2 => by
    simp only [timeLeB, decide_eq_true_eq] at *
    omega

theorem timeLeB_total : ∀ a b, timeLeB a b = true ∨ timeLeB b a = true
  | a, none => Or.inl (timeLeB_none_right a)
  | none, some _ => Or.inr (timeLeB_none_right none)
  | some a, some b => by
    simp only [timeLeB, decide_eq_true_eq]
    omega

theorem rowLe_refl_of_key {a b : Row} (h : keyOf a = keyOf b) : rowLe a b = true := by
  unfold keyOf at h
  rw [Prod.mk.injEq, Prod.mk.injEq] at h
  obtain ⟨h1, h2, h3⟩ := h
  unfold rowLe
  rw [if_pos h1, if_pos h2, h3]
  exact timeLeB_refl _

theorem data_ne_of_ne {a b : String} (h : a ≠ b) : a.data ≠ b.data :=
  fun he => h (String.ext he)

theorem rowLe_trans (a b c : Row) (h1 : rowLe a b = true) (h2 : rowLe b c = true) :
    rowLe a c = true := by
  unfold rowLe at h1 h2 ⊢
  by_cases hvab : a.vehicle_id = b.vehicle_id <;>
    by_cases hvbc : b.vehicle_id = c.vehicle_id
  · rw [if_pos hvab] at h1
    rw [if_pos hvbc] at h2
    rw [if_pos (hvab.trans hvbc)]
    by_cases htab : a.trip_id = b.trip_id <;> by_cases htbc : b.trip_id = c.trip_id
    · rw [if_pos htab] at h1
      rw [if_pos htbc] at h2
      rw [if_pos (htab.trans htbc)]
      exact timeLeB_trans _ _ _ h1 h2
    · rw [if_pos htab] at h1
      rw [if_neg htbc] at h2
      rw [if_neg (fun h => htbc (htab.symm.trans h)), htab]
      exact h2
    · rw [if_neg htab] at h1
      rw [if_pos htbc] at h2
      rw [if_neg (fun h => htab (h.trans htbc.symm)), ← htbc]
      exact h1
    · rw [if_neg htab] at h1
      rw [if_neg htbc] at h2
      have hne : a.trip_id ≠ c.trip_id := by
        intro he
        rw [← he] at h2
        have hasym := charListLt_asymm _ _ h1
        rw [h2] at hasym
        exact Bool.noConfusion hasym
      rw [if_neg hne]
      exact charListLt_trans _ _ _ h1 h2
  · rw [if_neg hvbc] at h2
    have hne : a.vehicle_id ≠ c.vehicle_id := fun h => hvbc (hvab.symm.trans h)
    rw [if_neg hne, hvab]
    exact h2
  · rw [if_neg hvab] at h1
    have hne : a.vehicle_id ≠ c.vehicle_id := fun h => hvab (h.trans hvbc.symm)
    rw [if_neg hne, ← hvbc]
    exact h1
  · rw [if_neg hvab] at h1
    rw [if_neg hvbc] at h2
    have hne : a.vehicle_id ≠ c.vehicle_id := by
      intro he
      rw [← he] at h2
      have hasym := charListLt_asymm _ _ h1
      rw [h2] at hasym
      exact Bool.noConfusion hasym
    rw [if_neg hne]
    exact charListLt_trans _ _ _ h1 h2

theorem rowLe_total (a b : Row) : rowLe a b = true ∨ rowLe b a = true := by
  unfold rowLe
  by_cases hv : a.vehicle_id = b.vehicle_id
  · rw [if_pos hv, if_pos hv.symm]
    by_cases ht : a.trip_id = b.trip_id
    · rw [if_pos ht, if_pos ht.symm]
      exact timeLeB_total _ _
    · rw [if_neg ht, if_neg (Ne.symm ht)]
      exact charListLt_total_of_ne _ _ (data_ne_of_ne ht)
  · rw [if_neg hv, if_neg (Ne.symm hv)]
    exact charListLt_total_of_ne _ _ (data_ne_of_ne hv)

theorem entryLe_of_key_eq {a b : Entry} (h : keyOf a.2 = keyOf b.2) : entryLe a b :=
  rowLe_refl_of_key h

/-! ### The median of a nonempty value list is defined -/

theorem median_isSome {l : List ℚ} (h : l ≠ []) : (median l).isSome := by
  have hpos : 0 < l.length := List.length_pos.mpr h
  have hlen : (l.insertionSort (fun a b => a ≤ b)).length = l.length :=
    List.length_insertionSort _ _
  simp only [median]
  by_cases hodd : (l.insertionSort (fun a b => a ≤ b)).length % 2 = 1
  · rw [if_pos hodd]
    have hlt : (l.insertionSort (fun a b => a ≤ b)).length / 2 <
        (l.insertionSort (fun a b => a ≤ b)).length := by
      apply Nat.div_lt_self <;> omega
    rw [List.getElem?_eq_getElem hlt]
    rfl
  · rw [if_neg hodd]
    have hlt1 : (l.insertionSort (fun a b => a ≤ b)).length / 2 <
        (l.insertionSort (fun a b => a ≤ b)).length := by
      apply Nat.div_lt_self <;> omega
    have hlt0 : (l.insertionSort (fun a b => a ≤ b)).length / 2 - 1 <
        (l.insertionSort (fun a b => a ≤ b)).length := by omega
    rw [List.getElem?_eq_getElem hlt0, List.getElem?_eq_getElem hlt1]
    rfl

theorem median_eq_none_iff {l : List ℚ} : median l = none ↔ l = [] := by
  constructor
  · intro h
    by_contra hne
    have := median_isSome hne
    rw [h] at this
    simp at this
  · rintro rfl
    simp [median]

end VehicleData

namespace VehicleData

/-! ### The imputation loop equals a per-row map

The loop of lines 37-42 mutates `df_cleaned` group by group, but groups
are disjoint and each group's median is read before that group is
mutated, so the loop's net effect is the per-row `fillRow` description
and the printed log is one message per signal with a defined median. -/

theorem groupVals_map_fillOn (l : List Entry) (done : List String) (s : String)
    (hs : s ∉ done) :
    groupVals (l.map (fillOn done l)) s = groupVals l s := by
  unfold groupVals
  rw [List.filter_map]
  have hpred : ∀ e ∈ l, ((fun e : Entry => e.2.signal_name == s) ∘ fillOn done l) e
      = (fun e : Entry => e.2.signal_name == s) e := fun e _ => by
    simp only [Function.comp_apply, fillOn_sig]
  rw [List.filter_congr hpred]
  rw [List.filterMap_map]
  apply List.filterMap_congr
  intro e he
  have hsig : e.2.signal_name = s := by
    have := List.of_mem_filter he
    simpa using this
  simp [Function.comp, fillOn, hsig, hs]

theorem fillOn_append_of_median_none (l : List Entry) (done : List String)
    (s : String) (hm : median (groupVals l s) = none) (e : Entry) :
    fillOn (done ++ [s]) l e = fillOn done l e := by
  unfold fillOn
  by_cases hd : e.2.signal_name ∈ done
  · rw [if_pos (by simp [hd]), if_pos hd]
  · by_cases hse : e.2.signal_name = s
    · rw [if_pos (by simp [hse]), if_neg hd]
      unfold fillRow
      split
      · rw [hse, hm]
      · rfl
    · rw [if_neg (by simp [hd, hse]), if_neg hd]

theorem imputeStep_map_fillOn (l : List Entry) (done : List String)
    (log : List (String × ℚ)) (s : String) (hs : s ∉ done) :
    imputeStep (l.map (fillOn done l), log) s =
      (l.map (fillOn (done ++ [s]) l), log ++ (logEntry l s).toList) := by
  unfold imputeStep
  simp only [groupVals_map_fillOn l done s hs]
  cases hm : median (groupVals l s) with
  | none =>
    simp only [logEntry, hm, Option.map_none', Option.toList_none, List.append_nil]
    congr 1
    exact (List.map_congr_left
      (fun e _ => fillOn_append_of_median_none l done s hm e)).symm
  | some m =>
    simp only [logEntry, hm, Option.map_some', Option.toList_some]
    congr 1
    show fillGroup s m (l.map (fillOn done l)) = l.map (fillOn (done ++ [s]) l)
    unfold fillGroup
    rw [List.map_map]
    apply List.map_congr_left
    intro e _
    simp only [Function.comp_apply]
    by_cases hd : e.2.signal_name ∈ done
    · have hne : e.2.signal_name ≠ s := fun h => hs (h ▸ hd)
      rw [show fillOn done l e = fillRow l e from if_pos hd,
          show fillOn (done ++ [s]) l e = fillRow l e from if_pos (by simp [hd])]
      rw [if_neg]
      rw [fillRow_sig]
      exact fun h => hne h.1
    · by_cases hse : e.2.signal_name = s
      · rw [show fillOn done l e = e from if_neg hd,
            show fillOn (done ++ [s]) l e = fillRow l e from if_pos (by simp [hse])]
        unfold fillRow
        by_cases hv : e.2.signal_value = none
        · rw [if_pos ⟨hse, hv⟩, if_pos hv,
            show median (groupVals l e.2.signal_name) = some m from hse.symm ▸ hm]
        · rw [if_neg (fun h => hv h.2), if_neg hv]
      · rw [show fillOn done l e = e from if_neg hd,
            show fillOn (done ++ [s]) l e = e from if_neg (by simp [hd, hse]),
            if_neg (fun h => hse h.1)]

theorem foldl_imputeStep (l : List Entry) :
    ∀ (ss done : List String) (log : List (String × ℚ)),
      ss.Nodup → (∀ s ∈ ss, s ∉ done) →
      ss.foldl imputeStep (l.map (fillOn done l), log) =
        (l.map (fillOn (done ++ ss) l), log ++ ss.filterMap (logEntry l)) := by
  intro ss
  induction ss with
  | nil =>
    intro done log _ _
    simp
  | cons s ss ih =>
    intro done log hnd hdis
    rw [List.foldl_cons, imputeStep_map_fillOn l done log s (hdis s (by simp))]
    rw [ih (done ++ [s]) _ (List.nodup_cons.mp hnd).2 ?_]
    · have happ : (done ++ [s]) ++ ss = done ++ s :: ss := by
        rw [List.append_assoc, List.singleton_append]
      rw [happ]
      congr 1
      cases hle : logEntry l s <;>
        simp [List.filterMap_cons, hle, List.append_assoc]
    · intro s' hs'
      simp only [List.mem_append, List.mem_singleton]
      rintro (h | rfl)
      · exact hdis s' (List.mem_cons_of_mem _ hs') h
      · exact (List.nodup_cons.mp hnd).1 hs'

theorem uniqueSignals_nodup : ∀ l : List Entry, (uniqueSignals l).Nodup
  | [] => List.nodup_nil
  | e :: l => by
    rw [uniqueSignals]
    refine List.nodup_cons.mpr ⟨?_, (uniqueSignals_nodup l).filter _⟩
    intro hmem
    have := List.of_mem_filter hmem
    simp at this

theorem sig_mem_uniqueSignals : ∀ (l : List Entry) (e : Entry), e ∈ l →
    e.2.signal_name ∈ uniqueSignals l
  | e' :: l, e, h => by
    rw [uniqueSignals]
    rcases List.mem_cons.mp h with rfl | hmem
    · exact List.mem_cons_self _ _
    · by_cases hse : e.2.signal_name = e'.2.signal_name
      · rw [hse]
        exact List.mem_cons_self _ _
      · refine List.mem_cons_of_mem _ (List.mem_filter.mpr
          ⟨sig_mem_uniqueSignals l e hmem, ?_⟩)
        simp [hse]

theorem imputeFold_eq (l : List Entry) :
    imputeFold l = (l.map (fillRow l), (uniqueSignals l).filterMap (logEntry l)) := by
  have h0 : l.map (fillOn [] l) = l := by
    rw [List.map_congr_left (fun e _ => by simp [fillOn] : ∀ e ∈ l, fillOn [] l e = id e)]
    exact List.map_id _
  have key := foldl_imputeStep l (uniqueSignals l) [] [] (uniqueSignals_nodup l) (by simp)
  rw [h0] at key
  unfold imputeFold
  rw [key, List.nil_append, List.nil_append]
  congr 1
  apply List.map_congr_left
  intro e he
  simp [fillOn, sig_mem_uniqueSignals l e he]

theorem fillMissing_eq_map (l : List Entry) : fillMissing l = l.map (fillRow l) := by
  unfold fillMissing
  rw [imputeFold_eq]

theorem imputeLog_eq (l : List Entry) :
    imputeLog l = (uniqueSignals l).filterMap (logEntry l) := by
  unfold imputeLog
  rw [imputeFold_eq]

end VehicleData

namespace VehicleData

/-! ### Facts about the derived-column stage -/

theorem derivePt_fst (e : Entry) : (derivePt e).1 = e.1 := by
  unfold derivePt
  split <;> rfl

theorem derivePt_stripVal (e : Entry) : stripVal (derivePt e).2 = stripVal e.2 := by
  unfold derivePt
  split <;> simp_all [stripVal]

theorem derivePt_sig (e : Entry) : (derivePt e).2.signal_name = e.2.signal_name := by
  unfold derivePt
  split <;> rfl

theorem derivePt_value (e : Entry) : (derivePt e).2.signal_value = e.2.signal_value := by
  unfold derivePt
  split <;> rfl

theorem derivePt_event_time (e : Entry) : (derivePt e).2.event_time = e.2.event_time := by
  unfold derivePt
  split <;> simp_all

theorem mem_addDerived {l : List Entry} {e : Entry} :
    e ∈ addDerived l ↔ ∃ e₀, e₀ ∈ l ∧ derivePt e₀ = e := by
  unfold addDerived
  exact List.mem_map

/-! ### The pipeline tail: sort, re-index, drop the index -/

theorem transform_eq (rows : List Row) :
    transform rows = (retained rows).map Prod.snd := by
  unfold transform resetIndex
  rw [List.enum_map_snd]

/-- Inserting an element whose `p`-support lies `r`-above it puts it in
front of every selected element: the filtered view gains `a` at the
front. -/
theorem filter_orderedInsert_sel {α : Type} (r : α → α → Prop) [DecidableRel r]
    (p : α → Bool) (a : α) (l : List α) (hpa : p a) (hkey : ∀ b, p b → r a b) :
    (l.orderedInsert r a).filter p = a :: l.filter p := by
  induction l with
  | nil => simp [List.orderedInsert, hpa]
  | cons b l ih =>
    rw [List.orderedInsert]
    by_cases hr : r a b
    · rw [if_pos hr, List.filter_cons, List.filter_cons]
      simp [hpa]
    · rw [if_neg hr, List.filter_cons, List.filter_cons]
      have hpb : ¬ p b = true := fun hpb => hr (hkey b hpb)
      simp [hpb, ih]

/-- Inserting an unselected element does not change the filtered view. -/
theorem filter_orderedInsert_unsel {α : Type} (r : α → α → Prop) [DecidableRel r]
    (p : α → Bool) (a : α) (l : List α) (hpa : ¬ p a = true) :
    (l.orderedInsert r a).filter p = l.filter p := by
  induction l with
  | nil => simp [List.orderedInsert, hpa]
  | cons b l ih =>
    rw [List.orderedInsert]
    by_cases hr : r a b
    · rw [if_pos hr]
      simp [List.filter_cons, hpa]
    · rw [if_neg hr, List.filter_cons, List.filter_cons, ih]

/-- Insertion sort is stable: it does not reorder the elements selected
by any predicate whose support is `r`-equivalent (in particular, by "sort
key equals `k`"). -/
theorem filter_insertionSort_stable {α : Type} (r : α → α → Prop) [DecidableRel r]
    (p : α → Bool) (hkey : ∀ a b, p a → p b → r a b) :
    ∀ l : List α, (l.insertionSort r).filter p = l.filter p
  | [] => rfl
  | a :: l => by
    rw [List.insertionSort]
    by_cases hpa : p a
    · rw [filter_orderedInsert_sel r p a _ hpa (fun b hb => hkey a b hpa hb),
        List.filter_cons]
      simp [hpa, filter_insertionSort_stable r p hkey l]
    · rw [filter_orderedInsert_unsel r p a _ hpa, List.filter_cons]
      simp [hpa, filter_insertionSort_stable r p hkey l]

theorem retained_pairwise (rows : List Row) :
    (retained rows).Pairwise (fun a b : Entry => entryLe a b) := by
  haveI : IsTotal Entry entryLe := ⟨fun a b => rowLe_total a.2 b.2⟩
  haveI : IsTrans Entry entryLe := ⟨fun a b c => rowLe_trans a.2 b.2 c.2⟩
  unfold retained sortStage
  exact List.sorted_insertionSort entryLe _

theorem transform_pairwise (rows : List Row) :
    (transform rows).Pairwise (fun a b => rowLe a b = true) := by
  rw [transform_eq, List.pairwise_map]
  exact (retained_pairwise rows).imp (fun h => h)

theorem mem_retained_iff {rows : List Row} {e : Entry} :
    e ∈ retained rows ↔ e ∈ addDerived (fillMissing (df_cleaned rows.enum)) := by
  unfold retained sortStage
  exact List.mem_insertionSort _

theorem mem_transform {rows : List Row} {r : Row} :
    r ∈ transform rows ↔
      ∃ e, e ∈ addDerived (fillMissing (df_cleaned rows.enum)) ∧ e.2 = r := by
  rw [transform_eq, List.mem_map]
  constructor
  · rintro ⟨e, he, rfl⟩
    exact ⟨e, mem_retained_iff.mp he, rfl⟩
  · rintro ⟨e, he, rfl⟩
    exact ⟨e, mem_retained_iff.mpr he, rfl⟩

/-! ### Facts about filtering and imputation members -/

theorem mem_df_cleaned {l : List Entry} {e : Entry} :
    e ∈ df_cleaned l ↔ e ∈ l ∧ e.2.event_time.isSome := by
  unfold df_cleaned
  rw [List.mem_filter]

theorem mem_fillMissing_iff {L : List Entry} {e : Entry} :
    e ∈ fillMissing L ↔ ∃ e₀, e₀ ∈ L ∧ fillRow L e₀ = e := by
  rw [fillMissing_eq_map]
  exact List.mem_map

theorem fillRow_value_none_iff {L : List Entry} {e : Entry} :
    (fillRow L e).2.signal_value = none ↔
      e.2.signal_value = none ∧ median (groupVals L e.2.signal_name) = none := by
  unfold fillRow
  by_cases hv : e.2.signal_value = none
  · rw [if_pos hv]
    cases hm : median (groupVals L e.2.signal_name) with
    | none => simp [hv]
    | some m => simp
  · rw [if_neg hv]
    simp [hv]

theorem groupVals_eq_nil_iff {L : List Entry} {s : String} :
    groupVals L s = [] ↔ ∀ e ∈ L, e.2.signal_name = s → e.2.signal_value = none := by
  unfold groupVals
  rw [List.filterMap_eq_nil_iff]
  constructor
  · intro h e he hs
    exact h e (List.mem_filter.mpr ⟨he, by simp [hs]⟩)
  · intro h e he
    have hm := List.mem_filter.mp he
    exact h e hm.1 (by simpa using hm.2)

theorem fillMissing_null_group {L : List Entry} {e : Entry}
    (he : e ∈ fillMissing L) (hv : e.2.signal_value = none) :
    ∀ f ∈ fillMissing L, f.2.signal_name = e.2.signal_name →
      f.2.signal_value = none := by
  rcases mem_fillMissing_iff.mp he with ⟨e₀, h₀, rfl⟩
  have h1 := fillRow_value_none_iff.mp hv
  intro f hf hfs
  rcases mem_fillMissing_iff.mp hf with ⟨f₀, hf₀, rfl⟩
  rw [fillRow_value_none_iff]
  have hfsig : f₀.2.signal_name = e₀.2.signal_name := by
    rw [← fillRow_sig L f₀, hfs, fillRow_sig]
  have hmed : median (groupVals L f₀.2.signal_name) = none := by
    rw [hfsig]
    exact h1.2
  refine ⟨?_, hmed⟩
  exact (groupVals_eq_nil_iff.mp (median_eq_none_iff.mp hmed)) f₀ hf₀ rfl

end VehicleData

namespace VehicleData

/-! ### Counting and length helpers -/

theorem df_cleaned_enum_snd (rows : List Row) :
    (df_cleaned rows.enum).map Prod.snd = rows.filter (fun r => r.event_time.isSome) := by
  unfold df_cleaned
  rw [show (fun e : Entry => e.2.event_time.isSome)
      = ((fun r : Row => r.event_time.isSome) ∘ Prod.snd) from rfl]
  rw [← List.filter_map]
  rw [List.enum_map_snd]

theorem transform_length (rows : List Row) :
    (transform rows).length = (df_cleaned rows.enum).length := by
  rw [transform_eq, List.length_map]
  unfold retained sortStage
  rw [List.length_insertionSort]
  unfold addDerived
  rw [List.length_map, fillMissing_eq_map, List.length_map]

theorem countP_split {α : Type} (p q : α → Bool) (l : List α) :
    l.countP p = (l.filter q).countP p + (l.filter (fun a => !(q a))).countP p := by
  induction l with
  | nil => simp
  | cons a l ih =>
    by_cases hq : q a <;> by_cases hp : p a <;>
      simp [List.countP_cons, List.filter_cons, hq, hp, ih] <;> omega

theorem derivePt_of_some {e : Entry} {t : Nat} (h : e.2.event_time = some t) :
    derivePt e =
      (e.1, { e.2 with date := some (t / 86400), hour := some (t % 86400 / 3600) }) := by
  unfold derivePt
  rw [h]

theorem mem_fillMissing_event_time {L : List Entry} {e : Entry}
    (he : e ∈ fillMissing (df_cleaned L)) : e.2.event_time.isSome := by
  rcases mem_fillMissing_iff.mp he with ⟨e₀, h₀, rfl⟩
  rw [fillRow_event_time]
  exact (mem_df_cleaned.mp h₀).2

/-- Every output record carries a timestamp, and its `date`/`hour`
columns are the day-number and hour-of-day components of that
timestamp. -/
theorem transform_derived_shape (rows : List Row) :
    ∀ r ∈ transform rows, ∃ t : Nat, r.event_time = some t ∧
      r.date = some (t / 86400) ∧ r.hour = some (t % 86400 / 3600) := by
  intro r hr
  rcases mem_transform.mp hr with ⟨e, he, rfl⟩
  rcases mem_addDerived.mp he with ⟨e₀, he₀, rfl⟩
  have hsome := mem_fillMissing_event_time he₀
  rcases Option.isSome_iff_exists.mp hsome with ⟨t, ht⟩
  refine ⟨t, ?_, ?_, ?_⟩
  · rw [derivePt_of_some ht]
    exact ht
  · rw [derivePt_of_some ht]
  · rw [derivePt_of_some ht]

/-- In the output, a null `signal_value` only occurs in a `signal_name`
group all of whose output records are null. -/
theorem transform_null_group (rows : List Row) (r : Row)
    (hr : r ∈ transform rows) (hv : r.signal_value = none) :
    ∀ r' ∈ transform rows, r'.signal_name = r.signal_name →
      r'.signal_value = none := by
  rcases mem_transform.mp hr with ⟨e, he, rfl⟩
  rcases mem_addDerived.mp he with ⟨e₀, he₀, rfl⟩
  rw [derivePt_value] at hv
  intro r' hr' hsig
  rcases mem_transform.mp hr' with ⟨f, hf, rfl⟩
  rcases mem_addDerived.mp hf with ⟨f₀, hf₀, rfl⟩
  rw [derivePt_value]
  rw [derivePt_sig, derivePt_sig] at hsig
  exact fillMissing_null_group he₀ hv f₀ hf₀ hsig

theorem snd_mem_of_mem_enum {α : Type} {l : List α} {e : Nat × α}
    (h : e ∈ l.enum) : e.2 ∈ l :=
  List.getElem?_mem (List.mem_enum_iff_getElem?.mp h)

/-! ### Claim theorems -/

/-- C1: the pipeline's final stage sorts the retained records by
`vehicle_id`, then `trip_id`, then `event_time`, all ascending (the
output is pairwise ordered under the lexicographic comparator `rowLe`);
the sort is stable (for every value `k` of the three-column key, the
subsequence of entries carrying key `k` is exactly the same, in the same
order, before and after sorting); and afterwards the row index is
renumbered `0, 1, ...` with no gaps, the prior identity being dropped. -/
theorem c1_sorted_stable_reindex (rows : List Row) :
    (transform rows).Pairwise (fun a b => rowLe a b = true) ∧
    (∀ k : String × String × Option Nat,
      (sortStage (addDerived (fillMissing (df_cleaned rows.enum)))).filter
          (fun e => decide (keyOf e.2 = k)) =
        (addDerived (fillMissing (df_cleaned rows.enum))).filter
          (fun e => decide (keyOf e.2 = k))) ∧
    (resetIndex (retained rows)).map Prod.fst = List.range (retained rows).length ∧
    transform rows = (resetIndex (retained rows)).map Prod.snd := by
  refine ⟨transform_pairwise rows, ?_, ?_, rfl⟩
  · intro k
    unfold sortStage
    apply filter_insertionSort_stable
    intro a b ha hb
    exact entryLe_of_key_eq ((of_decide_eq_true ha).trans (of_decide_eq_true hb).symm)
  · unfold resetIndex
    rw [List.enum_map_fst, List.length_map]

/-- C4: every record of the output carries a non-null `event_time`, and
its `date` column is exactly the calendar date component (day number) of
that timestamp while its `hour` column is exactly the hour-of-day
component, an integer between 0 and 23; both are computed from the very
timestamp the record carries (no timezone conversion), never set
independently. -/
theorem c4_derived_columns (rows : List Row) :
    ∀ r ∈ transform rows, ∃ t : Nat, r.event_time = some t ∧
      r.date = some (t / 86400) ∧ r.hour = some (t % 86400 / 3600) ∧
      t % 86400 / 3600 ≤ 23 := by
  intro r hr
  rcases transform_derived_shape rows r hr with ⟨t, ht, hd, hh⟩
  refine ⟨t, ht, hd, hh, ?_⟩
  have hmod : t % 86400 < 86400 := Nat.mod_lt _ (by norm_num)
  have hlt : t % 86400 / 3600 < 24 := by
    rw [Nat.div_lt_iff_lt_mul (by norm_num)]
    omega
  omega

/-- Witness for `c4_derived_columns`: the spec's sample row, whose
timestamp 36000 s lies on day 0 at hour 10. -/
theorem c4_derived_columns_witness :
    ∃ t : Nat,
      (⟨"V1", "T1", "speed", some 10, some 36000, none, some 0, some 10, []⟩ : Row).event_time
          = some t ∧
      (⟨"V1", "T1", "speed", some 10, some 36000, none, some 0, some 10, []⟩ : Row).date
          = some (t / 86400) ∧
      (⟨"V1", "T1", "speed", some 10, some 36000, none, some 0, some 10, []⟩ : Row).hour
          = some (t % 86400 / 3600) ∧
      t % 86400 / 3600 ≤ 23 :=
  c4_derived_columns [exRowSpeedA] _ (by decide)

/-- C5: after processing, a record's `signal_value` is null only if no
record of its `signal_name` group in the processed table has a non-null
value: whenever some output record of the group is null, every output
record of that group is null. -/
theorem c5_null_only_if_group_all_null (rows : List Row) (r : Row)
    (hr : r ∈ transform rows) (hv : r.signal_value = none) :
    ∀ r' ∈ transform rows, r'.signal_name = r.signal_name →
      r'.signal_value = none :=
  transform_null_group rows r hr hv

/-- Witness for `c5_null_only_if_group_all_null`: in the sample table the
`temp` group has no valid value, and its output record is null. -/
theorem c5_null_only_if_group_all_null_witness :
    (⟨"V2", "T2", "temp", none, some 90000, none, some 1, some 1, ["x"]⟩ : Row).signal_value
      = none :=
  c5_null_only_if_group_all_null exTable
    ⟨"V2", "T2", "temp", none, some 90000, none, some 1, some 1, ["x"]⟩
    (by decide) (by decide)
    ⟨"V2", "T2", "temp", none, some 90000, none, some 1, some 1, ["x"]⟩
    (by decide) (by decide)

/-- The `date`/`hour` assignments append new columns at the end when
they are not already present. -/
theorem outputHeader_append (h : List String) (hd : "date" ∉ h) (hh : "hour" ∉ h) :
    outputHeader h = h ++ ["date", "hour"] := by
  unfold outputHeader addColumn
  rw [if_neg hd, if_neg (by simp [hh]), List.append_assoc]
  rfl

/-- C8: on an empty table the pipeline totally computes the empty table,
and the output header is the input header with `date` and `hour`
appended (given that, as for any raw input, those two columns are not
already present). -/
theorem c8_empty_input (h : List String) (hd : "date" ∉ h) (hh : "hour" ∉ h) :
    transform [] = [] ∧ outputHeader h = h ++ ["date", "hour"] :=
  ⟨by decide, outputHeader_append h hd hh⟩

/-- Witness for `c8_empty_input` at the six-column schema header. -/
theorem c8_empty_input_witness :
    transform [] = [] ∧ outputHeader exHeader = exHeader ++ ["date", "hour"] :=
  c8_empty_input exHeader (by decide) (by decide)

/-- C10: the reported missing/invalid `signal_value` count of line 29 is
computed over the full pre-filter table: it splits as the nulls among the
rows that survive the `event_time` filter plus the nulls among the rows
later dropped, and it can strictly exceed the number of nulls the
imputation stage sees. -/
theorem c10_missing_count_prefilter (rows : List Row) :
    missing_values rows =
      ((df_cleaned rows.enum).map Prod.snd).countP (fun r => r.signal_value.isNone) +
        (rows.filter (fun r => r.event_time.isNone)).countP
          (fun r => r.signal_value.isNone) ∧
    (∃ ex : List Row,
      ((df_cleaned ex.enum).map Prod.snd).countP (fun r => r.signal_value.isNone) <
        missing_values ex) := by
  constructor
  · rw [df_cleaned_enum_snd]
    unfold missing_values
    rw [countP_split (fun r => r.signal_value.isNone) (fun r => r.event_time.isSome) rows]
    congr 1
    rw [show rows.filter (fun a => !(a.event_time.isSome))
        = rows.filter (fun r => r.event_time.isNone) from
      List.filter_congr (fun r _ => by cases r.event_time <;> rfl)]
  · exact ⟨[⟨"V1", "T1", "speed", none, none, none, none, none, []⟩], by decide⟩

end VehicleData

namespace VehicleData

/-! ### Value formula, locality, and more claim theorems -/

theorem fillRow_value (L : List Entry) (e : Entry) :
    (fillRow L e).2.signal_value =
      if e.2.signal_value = none then median (groupVals L e.2.signal_name)
      else e.2.signal_value := by
  unfold fillRow
  by_cases hv : e.2.signal_value = none
  · rw [if_pos hv, if_pos hv]
    cases hm : median (groupVals L e.2.signal_name) with
    | none => exact hv
    | some m => rfl
  · rw [if_neg hv, if_neg hv]

theorem groupVals_congr {L₁ L₂ : List Entry} {s : String}
    (h : L₁.filter (fun e => e.2.signal_name == s)
      = L₂.filter (fun e => e.2.signal_name == s)) :
    groupVals L₁ s = groupVals L₂ s := by
  unfold groupVals
  rw [h]

theorem fillMissing_filter_sig (L : List Entry) (s : String) :
    (fillMissing L).filter (fun e => e.2.signal_name == s)
      = (L.filter (fun e => e.2.signal_name == s)).map (fillRow L) := by
  rw [fillMissing_eq_map, List.filter_map]
  congr 1
  apply List.filter_congr
  intro e _
  simp only [Function.comp_apply, fillRow_sig]

theorem fillMissing_local {L₁ L₂ : List Entry} (s : String)
    (h : L₁.filter (fun e => e.2.signal_name == s)
      = L₂.filter (fun e => e.2.signal_name == s)) :
    (fillMissing L₁).filter (fun e => e.2.signal_name == s)
      = (fillMissing L₂).filter (fun e => e.2.signal_name == s) := by
  rw [fillMissing_filter_sig, fillMissing_filter_sig, h]
  apply List.map_congr_left
  intro e he
  have hsig : e.2.signal_name = s := by simpa using List.of_mem_filter he
  unfold fillRow
  by_cases hv : e.2.signal_value = none
  · rw [if_pos hv, if_pos hv, hsig, groupVals_congr h]
  · rw [if_neg hv, if_neg hv]

/-- C3: the imputation loop equals the declarative per-partition-median
description: (a) the loop's net effect is the per-row map `fillRow`;
(b) `fillRow` keeps the index and every column other than `signal_value`,
and replaces `signal_value` by the median of the non-null values of the
row's own `signal_name` partition exactly when it was null (in
particular, when that median is undefined the value remains null and
nothing is raised); (c) the median is undefined precisely for a partition
with zero non-null values; (d) the imputation of a partition depends only
on that partition's rows, never on other partitions. -/
theorem c3_median_imputation (rows : List Row) :
    fillMissing (df_cleaned rows.enum) =
      (df_cleaned rows.enum).map (fillRow (df_cleaned rows.enum)) ∧
    (∀ e : Entry, (fillRow (df_cleaned rows.enum) e).1 = e.1 ∧
      stripVal (fillRow (df_cleaned rows.enum) e).2 = stripVal e.2 ∧
      (fillRow (df_cleaned rows.enum) e).2.signal_value =
        (if e.2.signal_value = none
         then median (groupVals (df_cleaned rows.enum) e.2.signal_name)
         else e.2.signal_value)) ∧
    (∀ s, median (groupVals (df_cleaned rows.enum) s) = none ↔
      ∀ e ∈ df_cleaned rows.enum, e.2.signal_name = s → e.2.signal_value = none) ∧
    (∀ (L₁ L₂ : List Entry) (s : String),
      L₁.filter (fun e => e.2.signal_name == s)
          = L₂.filter (fun e => e.2.signal_name == s) →
      (fillMissing L₁).filter (fun e => e.2.signal_name == s) =
        (fillMissing L₂).filter (fun e => e.2.signal_name == s)) := by
  refine ⟨fillMissing_eq_map _, ?_, ?_, ?_⟩
  · intro e
    exact ⟨fillRow_fst _ _, fillRow_stripVal _ _, fillRow_value _ _⟩
  · intro s
    exact median_eq_none_iff.trans groupVals_eq_nil_iff
  · intro L₁ L₂ s h
    exact fillMissing_local s h

/-- Witness for `c3_median_imputation` (its locality conjunct): the
`speed` partition is imputed identically whether or not the unrelated
`temp` rows are present. -/
theorem c3_median_imputation_witness :
    (fillMissing [(0, exRowSpeedA)]).filter (fun e => e.2.signal_name == "speed") =
      (fillMissing [(0, exRowSpeedA), (1, exRowTempNull)]).filter
        (fun e => e.2.signal_name == "speed") :=
  (c3_median_imputation exTable).2.2.2 [(0, exRowSpeedA)]
    [(0, exRowSpeedA), (1, exRowTempNull)] "speed" (by decide)

/-- C6 counterexample: the claim "a (signal, median) message is emitted
iff at least one null in the partition was actually filled" is false: on
a table whose single `speed` record already carries a value, the loop
prints ("speed", 10) although the imputation changed nothing. -/
theorem c6_report_counterexample :
    imputeLog (df_cleaned ([exRowSpeedA].enum)) = [("speed", 10)] ∧
    fillMissing (df_cleaned ([exRowSpeedA].enum)) = df_cleaned ([exRowSpeedA].enum) ∧
    ¬ ((∃ m : ℚ, ("speed", m) ∈ imputeLog (df_cleaned ([exRowSpeedA].enum))) ↔
        fillMissing (df_cleaned ([exRowSpeedA].enum)) ≠ df_cleaned ([exRowSpeedA].enum)) :=
  ⟨by decide, by decide, fun h => h.mp ⟨10, by decide⟩ (by decide)⟩

/-- C6 (amended): a `(signal, median)` message is emitted exactly for
each signal of the filtered table whose partition median is defined
(i.e. the partition has at least one non-null value), with the median
used — whether or not any null was actually filled. -/
theorem c6_report_amended (rows : List Row) :
    ∀ s m, (s, m) ∈ imputeLog (df_cleaned rows.enum) ↔
      (s ∈ uniqueSignals (df_cleaned rows.enum) ∧
       median (groupVals (df_cleaned rows.enum) s) = some m) := by
  intro s m
  rw [imputeLog_eq]
  constructor
  · intro h
    rcases List.mem_filterMap.mp h with ⟨s', hs', hf⟩
    unfold logEntry at hf
    cases hmed : median (groupVals (df_cleaned rows.enum) s') with
    | none =>
      rw [hmed] at hf
      simp at hf
    | some m' =>
      rw [hmed] at hf
      simp only [Option.map_some', Option.some.injEq, Prod.mk.injEq] at hf
      obtain ⟨rfl, rfl⟩ := hf
      exact ⟨hs', hmed⟩
  · rintro ⟨hs, hm⟩
    apply List.mem_filterMap.mpr
    refine ⟨s, hs, ?_⟩
    unfold logEntry
    rw [hm]
    rfl

/-! ### C2: row filtering -/

theorem map_stripVal_perm (rows : List Row) :
    ((transform rows).map stripVal).Perm
      ((rows.filter (fun r => r.event_time.isSome)).map stripVal) := by
  rw [transform_eq, List.map_map]
  have h1 : (retained rows).Perm (addDerived (fillMissing (df_cleaned rows.enum))) := by
    unfold retained sortStage
    exact List.perm_insertionSort _ _
  refine (h1.map _).trans ?_
  have h2 : (addDerived (fillMissing (df_cleaned rows.enum))).map (stripVal ∘ Prod.snd)
      = (df_cleaned rows.enum).map (stripVal ∘ Prod.snd) := by
    unfold addDerived
    rw [List.map_map, fillMissing_eq_map, List.map_map]
    apply List.map_congr_left
    intro e _
    simp only [Function.comp_apply]
    rw [derivePt_stripVal, fillRow_stripVal]
  have h3 : (df_cleaned rows.enum).map (stripVal ∘ Prod.snd)
      = (rows.filter (fun r => r.event_time.isSome)).map stripVal := by
    rw [← List.map_map, df_cleaned_enum_snd]
  rw [h2, h3]

/-- C2: no output record has a null `event_time`; the output size is the
input size minus the number of rows whose `event_time` is null after
coercion; and — up to the `signal_value`/`date`/`hour` columns touched by
the later stages — the output records are exactly (a permutation of) the
input rows with a parseable `event_time`: every such row is retained and
nothing else is. -/
theorem c2_row_filtering (rows : List Row) :
    (∀ r ∈ transform rows, r.event_time ≠ none) ∧
    (transform rows).length = rows.length - invalid_times rows ∧
    ((transform rows).map stripVal).Perm
      ((rows.filter (fun r => r.event_time.isSome)).map stripVal) := by
  refine ⟨?_, ?_, map_stripVal_perm rows⟩
  · intro r hr
    rcases transform_derived_shape rows r hr with ⟨t, ht, _, _⟩
    rw [ht]
    exact Option.some_ne_none t
  · rw [transform_length]
    unfold df_cleaned invalid_times
    rw [← List.countP_eq_length_filter]
    have hmap : rows.enum.countP (fun e => e.2.event_time.isSome)
        = rows.countP (fun r => r.event_time.isSome) := by
      conv_rhs => rw [← List.enum_map_snd rows]
      rw [List.countP_map]
      rfl
    rw [hmap]
    have key : ∀ l : List Row, l.countP (fun r => r.event_time.isSome)
        + l.countP (fun r => r.event_time.isNone) = l.length := by
      intro l
      induction l with
      | nil => rfl
      | cons a l ih =>
        rcases ha : a.event_time with _ | t <;>
          simp [List.countP_cons, ha] <;> omega
    have hk := key rows
    omega

/-- Witness for `c2_row_filtering`: the earliest retained sample record
has a (non-null) timestamp. -/
theorem c2_row_filtering_witness :
    (⟨"V1", "T1", "speed", some 10, some 32400, none, some 0, some 9, []⟩ : Row).event_time
      ≠ none :=
  (c2_row_filtering exTable).1 _ (by decide)

end VehicleData

namespace VehicleData

/-! ### C9: pass-through of extra columns -/

/-- C9: every retained entry originates from the input row at its
(pre-reset) pandas index, and agrees with that row on every column the
pipeline does not derive or impute — in particular on any extra
pass-through columns; and the saved header is the input header with
`date` and `hour` appended. -/
theorem c9_extra_columns_passthrough (cols : List String) (rows : List Row)
    (hd : "date" ∉ cols) (hh : "hour" ∉ cols) :
    outputHeader cols = cols ++ ["date", "hour"] ∧
    ∀ e ∈ retained rows, ∃ r₀, rows[e.1]? = some r₀ ∧
      e.2.extra = r₀.extra ∧ e.2.vehicle_id = r₀.vehicle_id ∧
      e.2.trip_id = r₀.trip_id ∧ e.2.signal_name = r₀.signal_name ∧
      e.2.event_time = r₀.event_time ∧ e.2.ingestion_time = r₀.ingestion_time := by
  refine ⟨outputHeader_append cols hd hh, ?_⟩
  intro e he
  rcases mem_retained_iff.mp he with he'
  rcases mem_addDerived.mp he' with ⟨e₁, he₁, rfl⟩
  rcases mem_fillMissing_iff.mp he₁ with ⟨e₂, he₂, rfl⟩
  have he₃ : e₂ ∈ rows.enum := (mem_df_cleaned.mp he₂).1
  have hidx : rows[e₂.1]? = some e₂.2 := List.mem_enum_iff_getElem?.mp he₃
  have hstrip : stripVal (derivePt (fillRow (df_cleaned rows.enum) e₂)).2
      = stripVal e₂.2 := by
    rw [derivePt_stripVal, fillRow_stripVal]
  refine ⟨e₂.2, ?_, ?_, ?_, ?_, ?_, ?_, ?_⟩
  · rw [derivePt_fst, fillRow_fst]
    exact hidx
  · exact congrArg (fun x => x.2.2.2.2.2) hstrip
  · exact congrArg (fun x => x.1) hstrip
  · exact congrArg (fun x => x.2.1) hstrip
  · exact congrArg (fun x => x.2.2.1) hstrip
  · exact congrArg (fun x => x.2.2.2.1) hstrip
  · exact congrArg (fun x => x.2.2.2.2.1) hstrip

/-- Witness for `c9_extra_columns_passthrough`: the `temp` record of the
sample table sits at pre-reset index 3 and keeps its extra column value
`"x"`. -/
theorem c9_extra_columns_passthrough_witness :
    outputHeader exHeader = exHeader ++ ["date", "hour"] ∧
    (∃ r₀, exTable[(3 : Nat)]? = some r₀ ∧
      (⟨"V2", "T2", "temp", none, some 90000, none, some 1, some 1, ["x"]⟩ : Row).extra
          = r₀.extra ∧
      (⟨"V2", "T2", "temp", none, some 90000, none, some 1, some 1, ["x"]⟩ : Row).vehicle_id
          = r₀.vehicle_id ∧
      (⟨"V2", "T2", "temp", none, some 90000, none, some 1, some 1, ["x"]⟩ : Row).trip_id
          = r₀.trip_id ∧
      (⟨"V2", "T2", "temp", none, some 90000, none, some 1, some 1, ["x"]⟩ : Row).signal_name
          = r₀.signal_name ∧
      (⟨"V2", "T2", "temp", none, some 90000, none, some 1, some 1, ["x"]⟩ : Row).event_time
          = r₀.event_time ∧
      (⟨"V2", "T2", "temp", none, some 90000, none, some 1, some 1, ["x"]⟩ : Row).ingestion_time
          = r₀.ingestion_time) :=
  ⟨(c9_extra_columns_passthrough exHeader exTable (by decide) (by decide)).1,
   (c9_extra_columns_passthrough exHeader exTable (by decide) (by decide)).2
     (3, ⟨"V2", "T2", "temp", none, some 90000, none, some 1, some 1, ["x"]⟩)
     (by decide)⟩

end VehicleData

namespace VehicleData

/-! ### C7: idempotence -/

/-- C7: the pipeline is idempotent — run on its own output (the re-run's
coercions are the identity on already-typed values), it drops no row,
changes no value, performs no further imputation, recomputes the same
derived columns, and leaves the already-sorted order untouched. -/
theorem c7_idempotent (rows : List Row) :
    transform (transform rows) = transform rows := by
  have hsome : ∀ e ∈ (transform rows).enum, e.2.event_time.isSome := by
    intro e he
    rcases transform_derived_shape rows e.2 (snd_mem_of_mem_enum he) with ⟨t, ht, _, _⟩
    rw [ht]
    rfl
  have hfilter : df_cleaned (transform rows).enum = (transform rows).enum := by
    unfold df_cleaned
    exact List.filter_eq_self.mpr hsome
  have himpute : fillMissing (transform rows).enum = (transform rows).enum := by
    rw [fillMissing_eq_map]
    have hpt : ∀ e ∈ (transform rows).enum,
        fillRow (transform rows).enum e = (fun x => x) e := by
      intro e he
      unfold fillRow
      by_cases hv : e.2.signal_value = none
      · rw [if_pos hv]
        have hgroup : median (groupVals (transform rows).enum e.2.signal_name) = none := by
          rw [median_eq_none_iff, groupVals_eq_nil_iff]
          intro f hf hfs
          exact transform_null_group rows e.2 (snd_mem_of_mem_enum he) hv f.2
            (snd_mem_of_mem_enum hf) hfs
        rw [hgroup]
      · rw [if_neg hv]
    rw [List.map_congr_left hpt, List.map_id']
  have hderive : addDerived (transform rows).enum = (transform rows).enum := by
    unfold addDerived
    have hpt : ∀ e ∈ (transform rows).enum, derivePt e = (fun x => x) e := by
      intro e he
      rcases transform_derived_shape rows e.2 (snd_mem_of_mem_enum he) with ⟨t, ht, hd, hh⟩
      rw [derivePt_of_some ht, ← hd, ← hh]
    rw [List.map_congr_left hpt, List.map_id']
  have hsorted : List.Pairwise entryLe (transform rows).enum := by
    have hp := transform_pairwise rows
    rw [← List.enum_map_snd (transform rows)] at hp
    have hp2 : List.Pairwise
        (fun a b : Entry => rowLe (Prod.snd a) (Prod.snd b) = true)
        (transform rows).enum := List.pairwise_map.mp hp
    exact hp2
  have hsort : sortStage (transform rows).enum = (transform rows).enum := by
    unfold sortStage
    exact List.Sorted.insertionSort_eq hsorted
  calc transform (transform rows)
      = (retained (transform rows)).map Prod.snd := transform_eq _
    _ = transform rows := by
        unfold retained
        rw [hfilter, himpute, hderive, hsort, List.enum_map_snd]

end VehicleData
